import Mathlib

/-!
# EuljiroWorship — verification of the live-display client core

Shallow embedding of the client-side core of the EuljiroWorship repository:
the WebSocket live transport (`js/ws_hall.js`, `js/ws_obs.js`), the render
dispatcher (`js/main_hall.js`, `js/main_obs.js`), the lyric segmenter and
line balancer (`js/lyrics_utils_hall.js`), the text-fit engine
(`js/autoshrink_hall.js`, `js/autoshrink_obs.js`) and the video-seek
actions of the video renderer (`js/render_hall.js`, `js/render_obs.js`).

Pure functions become Lean functions; the event handlers of the transport
become explicit state transformers over a record of the module-level
mutable variables they touch; fallible JavaScript evaluation (property
access on `null`, calling a non-function) returns `Except`.
-/

namespace Euljiro

/-! ## Live transport (`js/ws_hall.js` and `js/ws_obs.js`)

Module state of each transport file: the socket handle `ws` (absent until
the first connect), the `connecting` flag, and the two heartbeat timers
`pingTimer` (interval) and `pongTimeout` (one-shot deadline).  Reconnection
attempts scheduled by `setTimeout(() => connectWebSocket(cb), 3000)` are
recorded as `(delay, callback)` pairs appended to a schedule list. -/

/-- `WebSocket.readyState` values. -/
inductive ReadyState where
  | CONNECTING
  | OPEN
  | CLOSING
  | CLOSED
deriving DecidableEq, Repr

/-- The connection-guard-relevant state of a transport module:
the `connecting` flag and the readiness of the current socket
(`none` = `ws` is still `undefined`). -/
structure ConnState where
  connecting : Bool
  ws : Option ReadyState
deriving DecidableEq, Repr

/-- The guard and socket creation of `connectWebSocket` in `js/ws_hall.js`:
`if (connecting) return;` then `connecting = true;` and
`ws = new WebSocket(...)` (a fresh socket starts in `CONNECTING`).
Returns the state after the call and whether a new socket was created. -/
def connectWebSocketHall (s : ConnState) : ConnState × Bool :=
  if s.connecting then (s, false)
  else ({ connecting := true, ws := some ReadyState.CONNECTING }, true)

/-- The guard and socket creation of `connectWebSocket` in `js/ws_obs.js`:
`if (connecting || (ws && ws.readyState === WebSocket.OPEN)) return;` then
`connecting = true;` and `ws = new WebSocket(...)`. -/
def connectWebSocketObs (s : ConnState) : ConnState × Bool :=
  if s.connecting || s.ws = some ReadyState.OPEN then (s, false)
  else ({ connecting := true, ws := some ReadyState.CONNECTING }, true)

/-- The effect of the `ws.onmessage` handler (identical in both transport
files) on one inbound message: `if (event.data === "pong")` clear
`pongTimeout` and return; otherwise call the payload callback with the
message.  `forwarded` lists the calls made to the callback, in order;
`clearedPong` records whether `clearTimeout(pongTimeout)` ran. -/
structure MsgEffect where
  forwarded : List String
  clearedPong : Bool
deriving DecidableEq, Repr

/-- `ws.onmessage` of `js/ws_hall.js` / `js/ws_obs.js` on message `data`. -/
def onmessage (data : String) : MsgEffect :=
  if data = "pong" then { forwarded := [], clearedPong := true }
  else { forwarded := [data], clearedPong := false }

/-- State touched by the `onerror` / `onclose` handlers of a transport
module: the `connecting` flag, whether `pingTimer` and `pongTimeout` are
armed, and the list of scheduled reconnection attempts
(`(delay in ms, callback)`), `α` being the type of the callback. -/
structure HBState (α : Type) where
  connecting : Bool
  pingArmed : Bool
  pongArmed : Bool
  scheduled : List (Nat × α)
deriving DecidableEq, Repr

/-- `ws.onerror` of `js/ws_hall.js` / `js/ws_obs.js`: logs and sets
`connecting = false`; nothing else. -/
def onerror {α : Type} (s : HBState α) : HBState α :=
  { s with connecting := false }

/-- `ws.onclose` of `js/ws_hall.js`: sets `connecting = false`, runs
`clearInterval(pingTimer)` and `clearTimeout(pongTimeout)`, and schedules
`setTimeout(() => connectWebSocket(onMessage), 3000)`. -/
def oncloseHall {α : Type} (cb : α) (s : HBState α) : HBState α :=
  { connecting := false
    pingArmed := false
    pongArmed := false
    scheduled := s.scheduled ++ [(3000, cb)] }

/-- `ws.onclose` of `js/ws_obs.js`: sets `connecting = false`, schedules
`setTimeout(() => connectWebSocket(onSlideJsonString), 3000)`, then runs
`clearInterval(pingTimer)` and `clearTimeout(pongTimeout)` (same statements
as the hall variant, with the reconnect scheduled before the timer
clears). -/
def oncloseObs {α : Type} (cb : α) (s : HBState α) : HBState α :=
  let s1 : HBState α := { s with connecting := false }
  let s2 : HBState α := { s1 with scheduled := s1.scheduled ++ [(3000, cb)] }
  { s2 with pingArmed := false, pongArmed := false }

/-! ## Render dispatcher (`js/main_hall.js` and `js/main_obs.js`)

The dispatcher receives a raw message string, parses it as JSON, and looks
up `data.style` in the `renderMap` object literal.  JavaScript semantics
modelled explicitly:

* `data.style` on `null` or `undefined` throws a `TypeError`;
* on an object it yields the own field `"style"` or `undefined` (the
  object's prototype, `Object.prototype`, has no `"style"` property);
* on a primitive it yields `undefined` (wrapper objects have no own
  `"style"` property);
* `renderMap[key]` finds the own entries of the literal first, then the
  inherited members of `Object.prototype` (all truthy); `__proto__` reads
  as `Object.prototype` itself, which is not callable, so calling it
  throws a `TypeError`. -/

/-- Values produced by `JSON.parse` (integers suffice for the payloads the
claims exercise), plus `undefined` for absent properties. -/
inductive JSValue where
  | null
  | undefined
  | bool (b : Bool)
  | num (n : Int)
  | str (s : String)
  | obj (fields : List (String × JSValue))

/-- Runtime errors the dispatcher can raise. -/
inductive JSError where
  | typeError
deriving DecidableEq, Repr

/-- `data.style`: JavaScript property access for the key `"style"`.
Throws `TypeError` on `null`/`undefined`; own-field lookup on objects
(`Object.prototype` has no `"style"`, so no prototype step is needed);
`undefined` on primitives. -/
def getStyle : JSValue → Except JSError JSValue
  | .null => .error .typeError
  | .undefined => .error .typeError
  | .obj fields => .ok ((fields.lookup "style").getD .undefined)
  | _ => .ok .undefined

/-- `ToPropertyKey`: the string key used for `renderMap[styleValue]`. -/
def toPropKey : JSValue → String
  | .null => "null"
  | .undefined => "undefined"
  | .bool true => "true"
  | .bool false => "false"
  | .num n => toString n
  | .str s => s
  | .obj _ => "[object Object]"

/-- The renderer functions referenced by the two `renderMap` literals. -/
inductive Renderer where
  | renderLyrics | renderVerse | renderCorner | renderAnthem | renderPrayer
  | renderGreet | renderImage | renderIntro | renderVideo | renderBlank
deriving DecidableEq, Repr

/-- The `renderMap` object literal of `js/main_hall.js` (own entries). -/
def renderMapHall : List (String × Renderer) :=
  [("lyrics", .renderLyrics), ("verse", .renderVerse), ("corner", .renderCorner),
   ("anthem", .renderAnthem), ("prayer", .renderPrayer), ("greet", .renderGreet),
   ("image", .renderImage), ("intro", .renderIntro), ("video", .renderVideo),
   ("blank", .renderBlank)]

/-- The `renderMap` object literal of `js/main_obs.js` (own entries; no
`intro` or `video` renderer on the OBS surface). -/
def renderMapObs : List (String × Renderer) :=
  [("lyrics", .renderLyrics), ("verse", .renderVerse), ("corner", .renderCorner),
   ("anthem", .renderAnthem), ("prayer", .renderPrayer), ("greet", .renderGreet),
   ("image", .renderImage), ("blank", .renderBlank)]

/-- The members an object literal inherits from `Object.prototype`,
paired with whether the inherited value is callable (`__proto__` reads as
the prototype object itself, which is not a function). -/
def objectProtoProps : List (String × Bool) :=
  [("constructor", true), ("hasOwnProperty", true), ("isPrototypeOf", true),
   ("propertyIsEnumerable", true), ("toLocaleString", true), ("toString", true),
   ("valueOf", true), ("__defineGetter__", true), ("__defineSetter__", true),
   ("__lookupGetter__", true), ("__lookupSetter__", true), ("__proto__", false)]

/-- A value `renderMap[key]` can evaluate to (other than `undefined`):
an own renderer entry, an inherited callable member of `Object.prototype`,
or the inherited non-callable `__proto__` object. -/
inductive Fn where
  | renderer (r : Renderer)
  | protoFn (name : String)
  | protoObj (name : String)
deriving DecidableEq, Repr

/-- `renderMap[key]`: own entries of the literal first, then the inherited
members of `Object.prototype`; `none` is JavaScript `undefined`. -/
def mapLookup (own : List (String × Renderer)) (key : String) : Option Fn :=
  match own.lookup key with
  | some r => some (.renderer r)
  | none =>
    match objectProtoProps.lookup key with
    | some true => some (.protoFn key)
    | some false => some (.protoObj key)
    | none => none

/-- The dispatch step of `js/main_hall.js` after a successful parse:
`const fn = renderMap[data.style] || renderBlank; if (fn) fn(data);`.
Returns the function that gets called with the payload, or the
`TypeError` the step throws. -/
def dispatchHall (data : JSValue) : Except JSError Fn := do
  let styleVal ← getStyle data
  let fn := (mapLookup renderMapHall (toPropKey styleVal)).getD (.renderer .renderBlank)
  match fn with
  | .protoObj _ => .error .typeError
  | f => .ok f

/-- The dispatch step of `js/main_obs.js` after a successful parse:
`const fn = renderMap[data.style]; if (!fn) { renderBlank(data); return; }
fn(data);`. -/
def dispatchObs (data : JSValue) : Except JSError Fn := do
  let styleVal ← getStyle data
  match mapLookup renderMapObs (toPropKey styleVal) with
  | none => .ok (.renderer .renderBlank)
  | some (.protoObj _) => .error .typeError
  | some f => .ok f

/-- The observable state of the shared `#container` render surface:
its contents (`innerHTML`), its CSS class, and its visibility
(`style.display`). -/
structure DomState where
  content : String
  className : String
  display : String
deriving DecidableEq, Repr

/-- Outcome of one full dispatcher run on a raw message. -/
inductive DispatchOutcome where
  | unchanged (dom : DomState)
  | invoked (f : Fn)
deriving DecidableEq, Repr

/-- The full message callback of `js/main_hall.js` / `js/main_obs.js`:
`try { data = JSON.parse(raw); } catch { log; return; }` then the dispatch
step.  `parse` stands for `JSON.parse` (`none` = the parse threw); on
parse failure the handler returns before touching the render surface, so
the previous DOM state `dom` is reported unchanged and no renderer runs. -/
def handleRaw (dispatch : JSValue → Except JSError Fn)
    (parse : String → Option JSValue) (raw : String) (dom : DomState) :
    Except JSError DispatchOutcome :=
  match parse raw with
  | none => .ok (.unchanged dom)
  | some data => (dispatch data).map .invoked


/-! ## Text-fit engine (`js/autoshrink_hall.js` and `js/autoshrink_obs.js`)

Both files run the same loop (the OBS variant additionally saves the
original `overflow` style, which it never restores — no effect on the
resulting font size).  The element is modelled by its overflow predicate
`ov : Nat → Bool`: `ov f = true` iff, with the font size set to `f` px and
`overflow` set to `visible`,
`el.scrollWidth > el.offsetWidth || el.scrollHeight > el.offsetHeight`. -/

/-- The shrink loop of `autoShrinkFont`:
`while (font > minFont && overflows) { font--; set el.style.fontSize }`.
Returns the final font size. -/
def shrinkLoop (ov : Nat → Bool) (font minFont : Nat) : Nat :=
  if minFont < font ∧ ov font = true then shrinkLoop ov (font - 1) minFont
  else font
termination_by font
decreasing_by omega

/-- `autoShrinkFont(el, maxFont, minFont)` of `js/autoshrink_hall.js` /
`js/autoshrink_obs.js`: sets `overflow: visible`, starts at `maxFont`, and
shrinks while the content overflows and the font is above `minFont`. -/
def autoShrinkFont (ov : Nat → Bool) (maxFont minFont : Nat) : Nat :=
  shrinkLoop ov maxFont minFont

/-! ## Video renderer seek actions (`js/render_hall.js`, `js/render_obs.js`)

The controls click handler of `renderVideo` (identical in both files):
`back`  → `video.currentTime = Math.max(0, (video.currentTime || 0) - 5);`
`fwd`   → `video.currentTime = Math.min(video.duration || Infinity,
(video.currentTime || 0) + 5);`
The current time is modelled as a rational `t`; the media duration as an
`Option ℚ`, `none` standing for `NaN` (metadata not loaded).  JavaScript
`||` falls back on every falsy value, so a duration of `NaN` *or `0`*
becomes `Infinity`, and `Math.min(Infinity, x) = x`. -/

/-- The `back` action: the new `currentTime`. -/
def seekBack (t : ℚ) : ℚ := max 0 (t - 5)

/-- The `fwd` action: the new `currentTime`, given the media duration
(`none` = `NaN`).  `video.duration || Infinity` yields `Infinity` when the
duration is `NaN` or `0`. -/
def seekFwd (t : ℚ) (duration : Option ℚ) : ℚ :=
  match duration with
  | none => t + 5
  | some d => if d = 0 then t + 5 else min d (t + 5)

/-! ## Lyrics segmenter (`js/lyrics_utils_hall.js`)

`segmentLyrics` scans the raw lines with one pending buffer;
`splitBalanced` balances one line into halves of near-equal character
length.  For `splitBalanced` the line is modelled as its character list
(`String.toList`), so that the `split(/\s+/)` tokenisation and the
`.length` measurements are explicit; lengths count code points, which
agrees with JavaScript's UTF-16 `.length` for the Basic Multilingual
Plane text (Korean, ASCII) the program handles. -/

/-- JavaScript `String.prototype.trim`: strip leading and trailing
whitespace from both ends of the string (modelled at the character level
so that it evaluates inside the kernel). -/
def jsTrim (s : String) : String :=
  String.mk
    (((s.toList.dropWhile Char.isWhitespace).reverse.dropWhile
        Char.isWhitespace).reverse)

/-- The instrumental interlude marker line. -/
def interludeMarker : String := "(간주)"

/-- The loop of `segmentLyrics` over the remaining lines, carrying the
pending `buffer`; the final `if (buffer.length) segments.push(buffer)` is
the base case. -/
def segCore : List String → List String → List (List String)
  | buffer, [] => if buffer.isEmpty then [] else [buffer]
  | buffer, rawLine :: rest =>
    let trimmed := jsTrim rawLine
    if trimmed = "" then
      (if buffer.isEmpty then [] else [buffer]) ++ segCore [] rest
    else if trimmed = interludeMarker then
      (if buffer.isEmpty then [] else [buffer]) ++ ([trimmed] :: segCore [] rest)
    else
      let buffer2 := buffer ++ [trimmed]
      if buffer2.length = 2 then buffer2 :: segCore [] rest
      else segCore buffer2 rest

/-- `segmentLyrics(lines)` of `js/lyrics_utils_hall.js`. -/
def segmentLyrics (lines : List String) : List (List String) :=
  segCore [] lines

/-- The maximal whitespace-free runs of a character list: the result of
JavaScript `trimmed.split(/\s+/)` on a trimmed, non-empty string. -/
def tokens (cs : List Char) : List (List Char) :=
  match cs with
  | [] => []
  | c :: rest =>
    if c.isWhitespace then tokens rest
    else (c :: rest.takeWhile (fun d => !d.isWhitespace)) ::
      tokens (rest.dropWhile (fun d => !d.isWhitespace))
termination_by cs.length
decreasing_by
  · simp only [List.length_cons]
    omega
  · simp only [List.length_cons]
    have := (List.dropWhile_sublist (l := rest)
      (p := fun d => !d.isWhitespace)).length_le
    omega

/-- `jsTrim line().split(/\s+/)`: on a trimmed string this is the list of
maximal whitespace-free runs (leading and trailing whitespace contribute
no runs, so trimming does not change them), except that splitting the
empty string yields the single entry `""`. -/
def jsWords (cs : List Char) : List (List Char) :=
  match tokens cs with
  | [] => [[]]
  | tk => tk

/-- `words.join(" ")` of JavaScript. -/
def joinSp : List (List Char) → List Char
  | [] => []
  | [w] => w
  | w :: rest => w ++ ' ' :: joinSp rest

/-- The trailing marker `"아멘"` as a character list. -/
def amenTok : List Char := "아멘".toList

/-- `Math.abs(words.slice(0, i).join(" ").length -
words.slice(i).join(" ").length)`: the balance defect of split index
`i`. -/
def diffAt (ws : List (List Char)) (i : Nat) : Nat :=
  (((joinSp (ws.take i)).length : Int) - ((joinSp (ws.drop i)).length : Int)).natAbs

/-- `d < diff` where `diff` starts as `Infinity` (`none`). -/
def ltDiff (d : Nat) : Option Nat → Bool
  | none => true
  | some dv => d < dv

/-- The `for (let i = 1; i < words.length; i++)` search of
`splitBalanced`: strict improvement updates `best` and `diff`. -/
def bestSplitAux (ws : List (List Char)) (i best : Nat) (diff : Option Nat) :
    Nat :=
  if i < ws.length then
    if ltDiff (diffAt ws i) diff then
      bestSplitAux ws (i + 1) i (some (diffAt ws i))
    else
      bestSplitAux ws (i + 1) best diff
  else best
termination_by ws.length - i

/-- The split index chosen by `splitBalanced`: `best = 1`,
`diff = Infinity`, scan `i` from `1`. -/
def bestSplit (ws : List (List Char)) : Nat :=
  bestSplitAux ws 1 1 none

/-- `words.at(-1) === "아멘"`: whether the line carries the trailing
marker. -/
def hasAmenOf (cs : List Char) : Bool :=
  (jsWords cs).getLast? == some amenTok

/-- The token list after `if (hasAmen) words.pop();`. -/
def wordsAfterAmen (cs : List Char) : List (List Char) :=
  if hasAmenOf cs then (jsWords cs).dropLast else jsWords cs

/-- `splitBalanced(line)` of `js/lyrics_utils_hall.js` on the character
list of the line: fewer than 2 remaining tokens are returned joined as a
single entry, otherwise the two halves at the best split index; the
detached marker is re-appended last. -/
def splitBalancedL (cs : List Char) : List (List Char) :=
  let words2 := wordsAfterAmen cs
  let res :=
    if words2.length < 2 then [joinSp words2]
    else
      [joinSp (words2.take (bestSplit words2)),
       joinSp (words2.drop (bestSplit words2))]
  if hasAmenOf cs then res ++ [amenTok] else res

/-- `splitBalanced(line)` on a string. -/
def splitBalanced (line : String) : List String :=
  (splitBalancedL line.toList).map fun l => String.mk l

end Euljiro

namespace Euljiro

/-- C1: the claim asserts the open-socket guard for both variants; the hall
variant checks only the `connecting` flag, so with `connecting = false` and
an `OPEN` socket it creates a fresh socket and mutates the state. -/
theorem connectHall_open_creates_socket :
    (connectWebSocketHall { connecting := false, ws := some ReadyState.OPEN }).2 = true ∧
    (connectWebSocketHall { connecting := false, ws := some ReadyState.OPEN }).1 ≠
      { connecting := false, ws := some ReadyState.OPEN } := by
  constructor
  · rfl
  · decide

/-- C1 (amended): in the OBS variant a call while a connection attempt is
in progress or the socket is `OPEN` is a no-op; in the hall variant a call
while a connection attempt is in progress is a no-op (only the
`connecting` flag guards). -/
theorem connect_guard_amended (s : ConnState) :
    (s.connecting = true ∨ s.ws = some ReadyState.OPEN →
      connectWebSocketObs s = (s, false)) ∧
    (s.connecting = true → connectWebSocketHall s = (s, false)) := by
  constructor
  · intro h
    unfold connectWebSocketObs
    rcases h with h | h
    · simp [h]
    · simp [h]
  · intro h
    unfold connectWebSocketHall
    simp [h]

/-- C1 witness: both guards fire on a concrete state. -/
theorem connect_guard_amended_witness :
    connectWebSocketObs { connecting := false, ws := some ReadyState.OPEN } =
      ({ connecting := false, ws := some ReadyState.OPEN }, false) ∧
    connectWebSocketHall { connecting := true, ws := none } =
      ({ connecting := true, ws := none }, false) :=
  ⟨(connect_guard_amended { connecting := false, ws := some ReadyState.OPEN }).1
      (Or.inr rfl),
   (connect_guard_amended { connecting := true, ws := none }).2 rfl⟩

/-- C2: an inbound `"pong"` clears the heartbeat deadline timer and is not
forwarded to the payload callback; every other message is forwarded
verbatim, exactly once, without touching the deadline timer. -/
theorem onmessage_pong_intercepted :
    (onmessage "pong" = { forwarded := [], clearedPong := true }) ∧
    ∀ d : String, d ≠ "pong" →
      onmessage d = { forwarded := [d], clearedPong := false } := by
  constructor
  · rfl
  · intro d hd
    unfold onmessage
    simp [hd]

/-- C2 witness: a concrete non-`"pong"` payload is forwarded verbatim. -/
theorem onmessage_pong_intercepted_witness :
    onmessage "hello" = { forwarded := ["hello"], clearedPong := false } :=
  onmessage_pong_intercepted.2 "hello" (by decide)

/-- C4: the code contradicts the claimed never-throwing blank fallback.
A `null` payload (raw message `"null"`) makes `data.style` throw a
`TypeError` in both dispatchers; a payload whose style is `"__proto__"`
makes `fn(data)` throw (`renderMap["__proto__"]` is the inherited
non-callable prototype object); a style `"constructor"` silently invokes
the inherited `Object` constructor instead of the blank renderer.  Plain
unknown strings do reach the blank renderer. -/
theorem dispatch_fallback_violations :
    dispatchHall JSValue.null = Except.error JSError.typeError ∧
    dispatchObs JSValue.null = Except.error JSError.typeError ∧
    dispatchHall (JSValue.obj [("style", JSValue.str "__proto__")]) =
      Except.error JSError.typeError ∧
    dispatchObs (JSValue.obj [("style", JSValue.str "__proto__")]) =
      Except.error JSError.typeError ∧
    dispatchHall (JSValue.obj [("style", JSValue.str "constructor")]) =
      Except.ok (Fn.protoFn "constructor") ∧
    dispatchHall (JSValue.obj [("style", JSValue.str "nonexistent")]) =
      Except.ok (Fn.renderer Renderer.renderBlank) ∧
    dispatchObs (JSValue.obj [("style", JSValue.str "nonexistent")]) =
      Except.ok (Fn.renderer Renderer.renderBlank) :=
  ⟨rfl, rfl, rfl, rfl, rfl, rfl, rfl⟩

/-- C5: when `JSON.parse` fails on the raw message, both dispatchers log
and return before selecting any renderer, so the previously rendered
surface state (contents, class, visibility) is untouched and no renderer
is invoked. -/
theorem parse_failure_leaves_dom (parse : String → Option JSValue)
    (raw : String) (dom : DomState) (h : parse raw = none) :
    handleRaw dispatchHall parse raw dom =
      Except.ok (DispatchOutcome.unchanged dom) ∧
    handleRaw dispatchObs parse raw dom =
      Except.ok (DispatchOutcome.unchanged dom) := by
  unfold handleRaw
  rw [h]
  exact ⟨rfl, rfl⟩

/-- C5 witness: a concrete non-JSON message with a parse function that
rejects it leaves a concrete surface state unchanged. -/
theorem parse_failure_leaves_dom_witness :
    handleRaw dispatchHall (fun _ => none) "not json"
        { content := "<div>old</div>", className := "verse", display := "flex" } =
      Except.ok (DispatchOutcome.unchanged
        { content := "<div>old</div>", className := "verse", display := "flex" }) :=
  (parse_failure_leaves_dom (fun _ => none) "not json"
    { content := "<div>old</div>", className := "verse", display := "flex" } rfl).1

/-- Loop invariant of the text-fit shrink loop: starting at `font ≥
minFont`, the result stays in `[minFont, font]`, every size strictly above
the result (and ≤ the start) was measured as overflowing, and if the loop
stopped strictly above `minFont` it stopped because the content fit. -/
theorem shrinkLoop_spec (ov : Nat → Bool) (minFont : Nat) :
    ∀ font, minFont ≤ font →
      minFont ≤ shrinkLoop ov font minFont ∧
      shrinkLoop ov font minFont ≤ font ∧
      (∀ s, shrinkLoop ov font minFont < s → s ≤ font → ov s = true) ∧
      (minFont < shrinkLoop ov font minFont →
        ov (shrinkLoop ov font minFont) = false) := by
  intro font
  induction font using Nat.strong_induction_on with
  | _ font ih =>
    intro hmf
    rw [shrinkLoop]
    by_cases h : minFont < font ∧ ov font = true
    · rw [if_pos h]
      have hrec := ih (font - 1) (by omega) (by omega)
      refine ⟨hrec.1, by omega, ?_, hrec.2.2.2⟩
      intro s hs1 hs2
      rcases Nat.lt_or_ge s font with hlt | hge
      · exact hrec.2.2.1 s hs1 (by omega)
      · have hsf : s = font := by omega
        rw [hsf]
        exact h.2
    · rw [if_neg h]
      refine ⟨hmf, le_refl _, ?_, ?_⟩
      · intro s hs1 hs2
        omega
      · intro hlt
        cases hov : ov font with
        | true => exact absurd ⟨hlt, hov⟩ h
        | false => rfl

/-- C8: for an element whose overflow predicate is monotone in the font
size, `autoShrinkFont` with `minFont ≤ maxFont` ends at the largest size
in `[minFont, maxFont]` at which the content fits, or at exactly
`minFont` when no size in that range fits. -/
theorem autoShrinkFont_largest_fit (ov : Nat → Bool) (maxFont minFont : Nat)
    (hmono : ∀ a b, a ≤ b → ov a = true → ov b = true)
    (hle : minFont ≤ maxFont) :
    (minFont ≤ autoShrinkFont ov maxFont minFont ∧
      autoShrinkFont ov maxFont minFont ≤ maxFont) ∧
    (∀ s, minFont ≤ s → s ≤ maxFont → ov s = false →
      s ≤ autoShrinkFont ov maxFont minFont ∧
      ov (autoShrinkFont ov maxFont minFont) = false) ∧
    ((∀ s, minFont ≤ s → s ≤ maxFont → ov s = true) →
      autoShrinkFont ov maxFont minFont = minFont) := by
  have hspec := shrinkLoop_spec ov minFont maxFont hle
  refine ⟨⟨hspec.1, hspec.2.1⟩, ?_, ?_⟩
  · intro s hs1 hs2 hfit
    have hsle : s ≤ autoShrinkFont ov maxFont minFont := by
      by_contra hgt
      push_neg at hgt
      have := hspec.2.2.1 s hgt hs2
      rw [hfit] at this
      exact Bool.false_ne_true this
    refine ⟨hsle, ?_⟩
    rcases Nat.lt_or_ge minFont (autoShrinkFont ov maxFont minFont) with hlt | hge
    · exact hspec.2.2.2 hlt
    · have hr : autoShrinkFont ov maxFont minFont = minFont := le_antisymm hge hspec.1
      have hs : s = minFont := le_antisymm (hr ▸ hsle) hs1
      rw [hr, ← hs]
      exact hfit
  · intro hall
    by_contra hne
    have hlt : minFont < autoShrinkFont ov maxFont minFont :=
      lt_of_le_of_ne hspec.1 (fun hh => hne hh.symm)
    have hfit := hspec.2.2.2 hlt
    have hov := hall _ hspec.1 hspec.2.1
    rw [hfit] at hov
    exact Bool.false_ne_true hov

/-- C8 witness: content that overflows exactly above 20 px, shrunk from 30
with floor 16, ends at 20 — the largest fitting size in range. -/
theorem autoShrinkFont_largest_fit_witness :
    (16 ≤ autoShrinkFont (fun n => decide (20 < n)) 30 16 ∧
      autoShrinkFont (fun n => decide (20 < n)) 30 16 ≤ 30) ∧
    (∀ s, 16 ≤ s → s ≤ 30 → (fun n => decide (20 < n)) s = false →
      s ≤ autoShrinkFont (fun n => decide (20 < n)) 30 16 ∧
      (fun n => decide (20 < n)) (autoShrinkFont (fun n => decide (20 < n)) 30 16) = false) ∧
    ((∀ s, 16 ≤ s → s ≤ 30 → (fun n => decide (20 < n)) s = true) →
      autoShrinkFont (fun n => decide (20 < n)) 30 16 = 16) :=
  autoShrinkFont_largest_fit (fun n => decide (20 < n)) 30 16
    (by
      intro a b hab ha
      simp only [decide_eq_true_eq] at ha ⊢
      omega)
    (by omega)

/-- C9: the claim's forward clamp `min d (t + 5)` fails at duration `0`:
`video.duration || Infinity` treats `0` as falsy, so the forward seek is
unclamped and sets the time to `5`, not `min 0 5 = 0`. -/
theorem seekFwd_zero_duration_unclamped :
    seekFwd 0 (some 0) = 5 ∧ seekFwd 0 (some 0) ≠ min (0 : ℚ) (0 + 5) := by
  constructor
  · simp [seekFwd]
  · simp [seekFwd]

/-- C9 (amended): for every playback time `t ≥ 0`, the back action sets
the time to `max 0 (t − 5)`; the forward action sets it to `min d (t + 5)`
when the media duration `d` is known and nonzero, and to the unclamped
`t + 5` when the duration is `0` or unknown (`NaN`), since the JavaScript
falsy check maps both to `Infinity`. -/
theorem seek_actions_amended (t d : ℚ) (ht : 0 ≤ t) :
    seekBack t = max 0 (t - 5) ∧
    (d ≠ 0 → seekFwd t (some d) = min d (t + 5)) ∧
    seekFwd t (some 0) = t + 5 ∧
    seekFwd t none = t + 5 := by
  refine ⟨rfl, ?_, by simp [seekFwd], rfl⟩
  intro hd
  simp [seekFwd, hd]

/-- C9 witness: at `t = 7` with duration `10`, back yields `2` and
forward yields `min 10 12 = 10`. -/
theorem seek_actions_amended_witness :
    seekBack 7 = max 0 (7 - 5 : ℚ) ∧
    ((10 : ℚ) ≠ 0 → seekFwd 7 (some 10) = min 10 (7 + 5)) ∧
    seekFwd 7 (some 0) = 7 + 5 ∧
    seekFwd (7 : ℚ) none = 7 + 5 :=
  seek_actions_amended 7 10 (by norm_num)

/-- The interlude marker is not the empty string. -/
theorem interludeMarker_ne_empty : interludeMarker ≠ "" := by decide

theorem segCore_join (lines : List String) : ∀ buffer : List String,
    (segCore buffer lines).flatten =
      buffer ++ (lines.map jsTrim).filter (fun t => t ≠ "") := by
  induction lines with
  | nil =>
    intro buffer
    by_cases h : buffer.isEmpty
    · simp [segCore, h, List.isEmpty_iff.mp h]
    · simp [segCore, h]
  | cons line rest ih =>
    intro buffer
    by_cases h1 : jsTrim line = ""
    · by_cases hb : buffer.isEmpty
      · simp [segCore, h1, hb, ih, List.isEmpty_iff.mp hb]
      · simp [segCore, h1, hb, ih]
    · by_cases h2 : jsTrim line = interludeMarker
      · by_cases hb : buffer.isEmpty
        · simp [segCore, h1, h2, hb, ih, List.isEmpty_iff.mp hb, interludeMarker_ne_empty]
        · simp [segCore, h1, h2, hb, ih, interludeMarker_ne_empty]
      · by_cases h3 : (buffer ++ [jsTrim line]).length = 2
        · simp [segCore, h1, h2, h3, ih]
        · have h3' : ¬ buffer.length = 1 := by simpa using h3
          simp [segCore, h1, h2, h3', ih]

theorem segCore_shape (lines : List String) : ∀ buffer : List String,
    buffer.length ≤ 1 →
    (∀ x ∈ buffer, x ≠ "" ∧ x ≠ interludeMarker) →
    ∀ seg ∈ segCore buffer lines,
      (1 ≤ seg.length ∧ seg.length ≤ 2) ∧
      (interludeMarker ∈ seg → seg = [interludeMarker]) ∧
      (∀ x ∈ seg, x ≠ "") := by
  induction lines with
  | nil =>
    intro buffer hlen hmem seg hseg
    by_cases hb : buffer.isEmpty
    · simp [segCore, hb] at hseg
    · simp [segCore, hb] at hseg
      rw [hseg]
      have hne : buffer ≠ [] := by simpa [List.isEmpty_iff] using hb
      refine ⟨⟨?_, by omega⟩, ?_, fun x hx => (hmem x hx).1⟩
      · have := List.length_pos.mpr hne
        omega
      · intro hmark
        exact absurd rfl (hmem _ hmark).2
  | cons line rest ih =>
    intro buffer hlen hmem seg hseg
    have hflush : ∀ s ∈ (if buffer.isEmpty then ([] : List (List String)) else [buffer]),
        (1 ≤ s.length ∧ s.length ≤ 2) ∧
        (interludeMarker ∈ s → s = [interludeMarker]) ∧
        (∀ x ∈ s, x ≠ "") := by
      intro s hs
      by_cases hb : buffer.isEmpty
      · simp [hb] at hs
      · simp [hb] at hs
        rw [hs]
        have hne : buffer ≠ [] := by simpa [List.isEmpty_iff] using hb
        refine ⟨⟨?_, by omega⟩, ?_, fun x hx => (hmem x hx).1⟩
        · have := List.length_pos.mpr hne
          omega
        · intro hmark
          exact absurd rfl (hmem _ hmark).2
    by_cases h1 : jsTrim line = ""
    · simp only [segCore, h1, if_pos] at hseg
      rw [List.mem_append] at hseg
      rcases hseg with hs | hs
      · exact hflush seg hs
      · exact ih [] (by simp) (by simp) seg hs
    · by_cases h2 : jsTrim line = interludeMarker
      · rw [segCore] at hseg
        simp only [h2, if_neg interludeMarker_ne_empty, if_pos rfl, ite_true, if_true] at hseg
        rw [List.mem_append] at hseg
        rcases hseg with hs | hs
        · exact hflush seg hs
        · rw [List.mem_cons] at hs
          rcases hs with hs | hs
          · subst hs
            refine ⟨by simp, fun _ => rfl, ?_⟩
            intro x hx
            rw [List.mem_singleton] at hx
            subst hx
            exact interludeMarker_ne_empty
          · exact ih [] (by simp) (by simp) seg hs
      · by_cases h3 : (buffer ++ [jsTrim line]).length = 2
        · simp only [segCore, h1, h2, h3, if_neg, if_pos, ite_true, ite_false] at hseg
          rw [List.mem_cons] at hseg
          rcases hseg with hs | hs
          · subst hs
            refine ⟨⟨by simp, le_of_eq h3⟩, ?_, ?_⟩
            · intro hmark
              rw [List.mem_append, List.mem_singleton] at hmark
              rcases hmark with hm | hm
              · exact absurd rfl (hmem _ hm).2
              · exact absurd hm.symm h2
            · intro x hx
              rw [List.mem_append, List.mem_singleton] at hx
              rcases hx with hx | hx
              · exact (hmem x hx).1
              · subst hx
                exact h1
          · exact ih [] (by simp) (by simp) seg hs
        · simp only [segCore, h1, h2, h3, if_neg, ite_false] at hseg
          refine ih (buffer ++ [jsTrim line]) ?_ ?_ seg hseg
          · rw [List.length_append] at h3 ⊢
            simp only [List.length_singleton] at h3 ⊢
            omega
          · intro x hx
            rw [List.mem_append, List.mem_singleton] at hx
            rcases hx with hx | hx
            · exact hmem x hx
            · subst hx
              exact ⟨h1, h2⟩

/-- C6: `segmentLyrics` never drops or reorders non-empty trimmed lines
(the flattened segments are exactly the non-empty trims, in order), every
segment containing the interlude marker is the singleton `["(간주)"]`,
every segment holds one or two lines none of which is empty, and the
example input `["A","B","","(간주)","C"]` yields
`[["A","B"],["(간주)"],["C"]]`. -/
theorem segmentLyrics_correct :
    (∀ lines : List String,
      (segmentLyrics lines).flatten =
        (lines.map jsTrim).filter (fun t => t ≠ "")) ∧
    (∀ lines : List String, ∀ seg ∈ segmentLyrics lines,
      (1 ≤ seg.length ∧ seg.length ≤ 2) ∧
      (interludeMarker ∈ seg → seg = [interludeMarker]) ∧
      (∀ x ∈ seg, x ≠ "")) ∧
    segmentLyrics ["A", "B", "", "(간주)", "C"] =
      [["A", "B"], ["(간주)"], ["C"]] := by
  refine ⟨?_, ?_, ?_⟩
  · intro lines
    simpa using segCore_join lines []
  · intro lines seg hseg
    exact segCore_shape lines [] (by simp) (by simp) seg hseg
  · decide

/-- C6 witness: the segment properties evaluated on the example input and
its interlude segment. -/
theorem segmentLyrics_correct_witness :
    (1 ≤ (["(간주)"] : List String).length ∧ (["(간주)"] : List String).length ≤ 2) ∧
    (interludeMarker ∈ (["(간주)"] : List String) → (["(간주)"] : List String) = [interludeMarker]) ∧
    (∀ x ∈ (["(간주)"] : List String), x ≠ "") :=
  segmentLyrics_correct.2.1 ["A", "B", "", "(간주)", "C"] ["(간주)"] (by decide)

/-- C3: every close event clears both heartbeat timers, resets the
in-progress flag, and schedules exactly one reconnection attempt after
3000 ms with the same callback (in both transport variants); an error
event only resets the in-progress flag — it leaves the timers and the
reconnection schedule untouched. -/
theorem onclose_onerror_behaviour {α : Type} (cb : α) (s : HBState α) :
    oncloseHall cb s =
      { connecting := false, pingArmed := false, pongArmed := false
        scheduled := s.scheduled ++ [(3000, cb)] } ∧
    oncloseObs cb s =
      { connecting := false, pingArmed := false, pongArmed := false
        scheduled := s.scheduled ++ [(3000, cb)] } ∧
    onerror s = { s with connecting := false } := by
  refine ⟨rfl, ?_, rfl⟩
  unfold oncloseObs
  rfl

theorem ltDiff_none (d : Nat) : ltDiff d none = true := rfl

theorem ltDiff_some (d dv : Nat) : ltDiff d (some dv) = true ↔ d < dv := by
  simp [ltDiff]

theorem bestSplitAux_spec (ws : List (List Char)) :
    ∀ k i best dv, k = ws.length - i → 1 ≤ best → best < i →
    best < ws.length →
    dv = diffAt ws best →
    (∀ j, 1 ≤ j → j < i → dv ≤ diffAt ws j) →
    (∀ j, 1 ≤ j → j < best → dv < diffAt ws j) →
    1 ≤ bestSplitAux ws i best (some dv) ∧
    bestSplitAux ws i best (some dv) < ws.length ∧
    (∀ j, 1 ≤ j → j < ws.length →
      diffAt ws (bestSplitAux ws i best (some dv)) ≤ diffAt ws j) ∧
    (∀ j, 1 ≤ j → j < bestSplitAux ws i best (some dv) →
      diffAt ws (bestSplitAux ws i best (some dv)) < diffAt ws j) := by
  intro k
  induction k using Nat.strong_induction_on with
  | _ k ih =>
    intro i best dv hk h1 h2 h6 h3 h4 h5
    rw [bestSplitAux]
    by_cases hi : i < ws.length
    · rw [if_pos hi]
      by_cases hlt : ltDiff (diffAt ws i) (some dv) = true
      · rw [if_pos hlt]
        rw [ltDiff_some] at hlt
        refine ih (ws.length - (i + 1)) (by omega) (i + 1) i (diffAt ws i)
          rfl (by omega) (by omega) hi rfl ?_ ?_
        · intro j hj1 hj2
          rcases Nat.lt_or_ge j i with hj | hj
          · exact le_of_lt (lt_of_lt_of_le hlt (h3 ▸ h4 j hj1 hj))
          · have : j = i := by omega
            rw [this]
        · intro j hj1 hj2
          exact lt_of_lt_of_le hlt (h3 ▸ h4 j hj1 (by omega))
      · rw [if_neg hlt]
        rw [ltDiff_some] at hlt
        push_neg at hlt
        refine ih (ws.length - (i + 1)) (by omega) (i + 1) best dv
          rfl h1 (by omega) h6 h3 ?_ h5
        intro j hj1 hj2
        rcases Nat.lt_or_ge j i with hj | hj
        · exact h4 j hj1 hj
        · have : j = i := by omega
          rw [this]
          exact hlt
    · rw [if_neg hi]
      refine ⟨h1, h6, ?_, ?_⟩
      · intro j hj1 hj2
        rw [← h3]
        exact h4 j hj1 (by omega)
      · intro j hj1 hj2
        rw [← h3]
        exact h5 j hj1 hj2

theorem bestSplit_spec (ws : List (List Char)) (h : 2 ≤ ws.length) :
    1 ≤ bestSplit ws ∧ bestSplit ws < ws.length ∧
    (∀ j, 1 ≤ j → j < ws.length →
      diffAt ws (bestSplit ws) ≤ diffAt ws j) ∧
    (∀ j, 1 ≤ j → j < bestSplit ws →
      diffAt ws (bestSplit ws) < diffAt ws j) := by
  unfold bestSplit
  rw [bestSplitAux]
  rw [if_pos (by omega : 1 < ws.length), if_pos (ltDiff_none _)]
  refine bestSplitAux_spec ws (ws.length - 2) 2 1 (diffAt ws 1) rfl
    le_rfl (by omega) (by omega) rfl ?_ ?_
  · intro j hj1 hj2
    have : j = 1 := by omega
    rw [this]
  · intro j hj1 hj2
    omega

/-- C7: with at least two tokens left after detaching a trailing "아멘",
`splitBalanced` returns the two halves joined at the split index in
`[1, count)` that minimizes the absolute character-length difference of
the joined halves, taking the leftmost index on ties, with the detached
marker re-appended last; with fewer than two remaining tokens it returns
the joined line as a single entry plus the marker; and
`splitBalanced "기쁘다 아멘" = ["기쁘다", "아멘"]`. -/
theorem splitBalanced_minimizes :
    (∀ cs : List Char, 2 ≤ (wordsAfterAmen cs).length →
      (1 ≤ bestSplit (wordsAfterAmen cs) ∧
        bestSplit (wordsAfterAmen cs) < (wordsAfterAmen cs).length) ∧
      (∀ j, 1 ≤ j → j < (wordsAfterAmen cs).length →
        diffAt (wordsAfterAmen cs) (bestSplit (wordsAfterAmen cs)) ≤
          diffAt (wordsAfterAmen cs) j) ∧
      (∀ j, 1 ≤ j → j < bestSplit (wordsAfterAmen cs) →
        diffAt (wordsAfterAmen cs) (bestSplit (wordsAfterAmen cs)) <
          diffAt (wordsAfterAmen cs) j) ∧
      splitBalancedL cs =
        [joinSp ((wordsAfterAmen cs).take (bestSplit (wordsAfterAmen cs))),
         joinSp ((wordsAfterAmen cs).drop (bestSplit (wordsAfterAmen cs)))] ++
        (if hasAmenOf cs then [amenTok] else [])) ∧
    (∀ cs : List Char, (wordsAfterAmen cs).length < 2 →
      splitBalancedL cs =
        [joinSp (wordsAfterAmen cs)] ++
        (if hasAmenOf cs then [amenTok] else [])) ∧
    splitBalanced "기쁘다 아멘" = ["기쁘다", "아멘"] := by
  refine ⟨?_, ?_, ?_⟩
  · intro cs h
    have hs := bestSplit_spec (wordsAfterAmen cs) h
    refine ⟨⟨hs.1, hs.2.1⟩, hs.2.2.1, hs.2.2.2, ?_⟩
    have h2 : ¬ ((wordsAfterAmen cs).length < 2) := by omega
    by_cases ha : hasAmenOf cs
    · simp [splitBalancedL, h2, ha]
    · simp [splitBalancedL, h2, ha]
  · intro cs h
    by_cases ha : hasAmenOf cs
    · simp [splitBalancedL, h, ha]
    · simp [splitBalancedL, h, ha]
  · show (splitBalancedL "기쁘다 아멘".toList).map (fun l => String.mk l) =
      ["기쁘다", "아멘"]
    have htok : tokens ['기', '쁘', '다', ' ', '아', '멘'] =
        [['기', '쁘', '다'], ['아', '멘']] := by
      simp +decide [tokens]
    simp +decide [splitBalancedL, wordsAfterAmen, hasAmenOf, jsWords, htok,
      amenTok, joinSp]

/-- C7 witness: the minimizing-split properties evaluated on the concrete
line `"a bb ccc"`. -/
theorem splitBalanced_minimizes_witness :
    2 ≤ (wordsAfterAmen "a bb ccc".toList).length ∧
    ((1 ≤ bestSplit (wordsAfterAmen "a bb ccc".toList) ∧
        bestSplit (wordsAfterAmen "a bb ccc".toList) <
          (wordsAfterAmen "a bb ccc".toList).length) ∧
      (∀ j, 1 ≤ j → j < (wordsAfterAmen "a bb ccc".toList).length →
        diffAt (wordsAfterAmen "a bb ccc".toList)
            (bestSplit (wordsAfterAmen "a bb ccc".toList)) ≤
          diffAt (wordsAfterAmen "a bb ccc".toList) j) ∧
      (∀ j, 1 ≤ j → j < bestSplit (wordsAfterAmen "a bb ccc".toList) →
        diffAt (wordsAfterAmen "a bb ccc".toList)
            (bestSplit (wordsAfterAmen "a bb ccc".toList)) <
          diffAt (wordsAfterAmen "a bb ccc".toList) j) ∧
      splitBalancedL "a bb ccc".toList =
        [joinSp ((wordsAfterAmen "a bb ccc".toList).take
            (bestSplit (wordsAfterAmen "a bb ccc".toList))),
         joinSp ((wordsAfterAmen "a bb ccc".toList).drop
            (bestSplit (wordsAfterAmen "a bb ccc".toList)))] ++
        (if hasAmenOf "a bb ccc".toList then [amenTok] else [])) := by
  have hw : 2 ≤ (wordsAfterAmen "a bb ccc".toList).length := by
    simp +decide [wordsAfterAmen, hasAmenOf, jsWords, tokens, amenTok]
  exact ⟨hw, splitBalanced_minimizes.1 "a bb ccc".toList hw⟩

theorem tokens_nil : tokens [] = [] := by rw [tokens]

theorem tokens_ws_cons (c : Char) (cs : List Char) (h : c.isWhitespace = true) :
    tokens (c :: cs) = tokens cs := by
  rw [tokens]
  simp [h]

theorem takeWhile_append_all (p : Char → Bool) (l1 l2 : List Char)
    (h : ∀ x ∈ l1, p x = true) :
    (l1 ++ l2).takeWhile p = l1 ++ l2.takeWhile p := by
  induction l1 with
  | nil => simp
  | cons c cs ih =>
    rw [List.cons_append, List.takeWhile_cons, if_pos (h c (by simp)),
      ih (fun x hx => h x (by simp [hx])), List.cons_append]

theorem dropWhile_append_all (p : Char → Bool) (l1 l2 : List Char)
    (h : ∀ x ∈ l1, p x = true) :
    (l1 ++ l2).dropWhile p = l2.dropWhile p := by
  induction l1 with
  | nil => simp
  | cons c cs ih =>
    rw [List.cons_append, List.dropWhile_cons_of_pos (h c (by simp)),
      ih (fun x hx => h x (by simp [hx]))]

theorem tokens_word_sep (c : Char) (w cs : List Char)
    (hc : c.isWhitespace = false) (hw : ∀ d ∈ w, d.isWhitespace = false) :
    tokens (c :: (w ++ ' ' :: cs)) = (c :: w) :: tokens cs := by
  rw [tokens]
  simp only [hc, Bool.false_eq_true, if_false]
  have hall : ∀ x ∈ w, (fun d => !d.isWhitespace) x = true := by
    intro x hx
    simp [hw x hx]
  rw [takeWhile_append_all _ w _ hall, dropWhile_append_all _ w _ hall]
  rw [List.takeWhile_cons, List.dropWhile_cons]
  simp [tokens_ws_cons]

theorem tokens_word (c : Char) (w : List Char)
    (hc : c.isWhitespace = false) (hw : ∀ d ∈ w, d.isWhitespace = false) :
    tokens (c :: w) = [c :: w] := by
  rw [tokens]
  simp only [hc, Bool.false_eq_true, if_false]
  have hall : ∀ x ∈ w, (fun d => !d.isWhitespace) x = true := by
    intro x hx
    simp [hw x hx]
  have ht := takeWhile_append_all (fun d => !d.isWhitespace) w [] hall
  have hd := dropWhile_append_all (fun d => !d.isWhitespace) w [] hall
  simp only [List.append_nil] at ht hd
  rw [ht, hd]
  simp [tokens_nil]

theorem tokens_props : ∀ n (cs : List Char), cs.length ≤ n →
    ∀ t ∈ tokens cs, t ≠ [] ∧ ∀ c ∈ t, c.isWhitespace = false := by
  intro n
  induction n with
  | zero =>
    intro cs hlen t ht
    have : cs = [] := List.length_eq_zero.mp (by omega)
    subst this
    rw [tokens_nil] at ht
    exact absurd ht (List.not_mem_nil t)
  | succ n ih =>
    intro cs hlen t ht
    match cs with
    | [] =>
      rw [tokens_nil] at ht
      exact absurd ht (List.not_mem_nil t)
    | c :: rest =>
      cases hc : c.isWhitespace with
      | true =>
        rw [tokens_ws_cons c rest hc] at ht
        exact ih rest (by simpa using hlen) t ht
      | false =>
        rw [tokens] at ht
        simp only [hc, Bool.false_eq_true, if_false] at ht
        rw [List.mem_cons] at ht
        rcases ht with ht | ht
        · subst ht
          refine ⟨by simp, ?_⟩
          intro d hd
          rw [List.mem_cons] at hd
          rcases hd with hd | hd
          · subst hd
            exact hc
          · have := List.mem_takeWhile_imp hd
            simpa using this
        · refine ih (rest.dropWhile (fun d => !d.isWhitespace)) ?_ t ht
          have := (List.dropWhile_sublist (l := rest)
            (p := fun d => !d.isWhitespace)).length_le
          simp only [List.length_cons] at hlen
          omega

theorem tokens_mem_props (cs : List Char) :
    ∀ t ∈ tokens cs, t ≠ [] ∧ ∀ c ∈ t, c.isWhitespace = false :=
  tokens_props cs.length cs le_rfl

theorem tokens_joinSp : ∀ ws : List (List Char),
    (∀ w ∈ ws, w ≠ [] ∧ ∀ c ∈ w, c.isWhitespace = false) →
    tokens (joinSp ws) = ws := by
  intro ws
  induction ws with
  | nil =>
    intro _
    simp [joinSp, tokens_nil]
  | cons w rest ih =>
    intro h
    obtain ⟨hne, hchars⟩ := h w (by simp)
    obtain ⟨c, w', rfl⟩ := List.exists_cons_of_ne_nil hne
    cases rest with
    | nil =>
      show tokens (joinSp [c :: w']) = [c :: w']
      rw [show joinSp [c :: w'] = c :: w' from rfl]
      exact tokens_word c w' (hchars c (by simp)) (fun d hd => hchars d (by simp [hd]))
    | cons r rest' =>
      show tokens (joinSp ((c :: w') :: r :: rest')) = (c :: w') :: r :: rest'
      rw [show joinSp ((c :: w') :: r :: rest') = (c :: w') ++ ' ' :: joinSp (r :: rest') from rfl]
      rw [List.cons_append]
      rw [tokens_word_sep c w' (joinSp (r :: rest')) (hchars c (by simp))
        (fun d hd => hchars d (by simp [hd]))]
      rw [ih (fun x hx => h x (by simp [hx]))]

theorem tokens_amenTok : tokens amenTok = [amenTok] := by
  simp +decide [tokens, amenTok]

theorem jsWords_of_ne (cs : List Char) (h0 : tokens cs ≠ []) :
    jsWords cs = tokens cs := by
  unfold jsWords
  split
  · exact absurd (by assumption) h0
  · rfl

theorem splitBalancedL_flatten (cs : List Char) :
    ((splitBalancedL cs).map tokens).flatten = tokens cs := by
  by_cases h0 : tokens cs = []
  · have hjw : jsWords cs = [[]] := by rw [jsWords, h0]
    have hamen : hasAmenOf cs = false := by
      simp +decide [hasAmenOf, hjw, amenTok]
    have hwa : wordsAfterAmen cs = [[]] := by
      rw [wordsAfterAmen, hamen]
      simp [hjw]
    simp [splitBalancedL, hwa, hamen, joinSp, h0, tokens_nil]
  · have hjw : jsWords cs = tokens cs := jsWords_of_ne cs h0
    have hprops := tokens_mem_props cs
    by_cases ha : hasAmenOf cs
    · have hget : (tokens cs).getLast? = some amenTok := by
        rw [hasAmenOf, hjw] at ha
        simpa using ha
      have hdec : (tokens cs).dropLast ++ [amenTok] = tokens cs :=
        List.dropLast_append_getLast? amenTok hget
      have hwa : wordsAfterAmen cs = (tokens cs).dropLast := by
        rw [wordsAfterAmen, if_pos ha, hjw]
      have hWprops : ∀ w ∈ (tokens cs).dropLast,
          w ≠ [] ∧ ∀ c ∈ w, c.isWhitespace = false :=
        fun w hw => hprops w (List.mem_of_mem_dropLast hw)
      by_cases hlen : ((tokens cs).dropLast).length < 2
      · have hlen' : (tokens cs).length - 1 < 2 := by
          rw [List.length_dropLast] at hlen
          exact hlen
        have : splitBalancedL cs = [joinSp ((tokens cs).dropLast)] ++ [amenTok] := by
          simp [splitBalancedL, hwa, ha, hlen']
        rw [this]
        simp only [List.map_append, List.map_cons, List.map_nil, List.flatten_append,
          List.flatten_cons, List.flatten_nil, List.append_nil]
        rw [tokens_joinSp _ hWprops, tokens_amenTok, hdec]
      · have hlen' : ¬ ((tokens cs).length - 1 < 2) := by
          rw [List.length_dropLast] at hlen
          exact hlen
        have : splitBalancedL cs =
            [joinSp (((tokens cs).dropLast).take (bestSplit ((tokens cs).dropLast))),
             joinSp (((tokens cs).dropLast).drop (bestSplit ((tokens cs).dropLast)))] ++
            [amenTok] := by
          simp [splitBalancedL, hwa, ha, hlen']
        rw [this]
        simp only [List.map_append, List.map_cons, List.map_nil, List.flatten_append,
          List.flatten_cons, List.flatten_nil, List.append_nil]
        rw [tokens_joinSp _ (fun w hw => hWprops w (List.mem_of_mem_take hw)),
          tokens_joinSp _ (fun w hw => hWprops w (List.mem_of_mem_drop hw)),
          tokens_amenTok, List.take_append_drop, hdec]
    · have hwa : wordsAfterAmen cs = tokens cs := by
        rw [wordsAfterAmen, if_neg ha, hjw]
      by_cases hlen : (tokens cs).length < 2
      · have : splitBalancedL cs = [joinSp (tokens cs)] := by
          simp [splitBalancedL, hwa, ha, hlen]
        rw [this]
        simp only [List.map_cons, List.map_nil, List.flatten_cons, List.flatten_nil,
          List.append_nil]
        exact tokens_joinSp _ hprops
      · have : splitBalancedL cs =
            [joinSp ((tokens cs).take (bestSplit (tokens cs))),
             joinSp ((tokens cs).drop (bestSplit (tokens cs)))] := by
          simp [splitBalancedL, hwa, ha, hlen]
        rw [this]
        simp only [List.map_cons, List.map_nil, List.flatten_cons, List.flatten_nil,
          List.append_nil]
        rw [tokens_joinSp _ (fun w hw => hprops w (List.mem_of_mem_take hw)),
          tokens_joinSp _ (fun w hw => hprops w (List.mem_of_mem_drop hw))]
        exact List.take_append_drop _ _

theorem splitBalancedL_length (cs : List Char) :
    1 ≤ (splitBalancedL cs).length ∧ (splitBalancedL cs).length ≤ 3 := by
  unfold splitBalancedL
  by_cases h1 : (wordsAfterAmen cs).length < 2 <;>
    by_cases h2 : hasAmenOf cs <;>
      simp [h1, h2]

theorem splitBalancedL_amen_only (cs : List Char)
    (h : tokens cs = [amenTok]) :
    (splitBalancedL cs).head? = some [] := by
  have hjw : jsWords cs = [amenTok] := by
    simp [jsWords, h]
  have hamen : hasAmenOf cs = true := by
    simp [hasAmenOf, hjw]
  have hwa : wordsAfterAmen cs = [] := by
    simp [wordsAfterAmen, hamen, hjw]
  simp [splitBalancedL, hwa, hamen, joinSp]

/-- C10: `splitBalanced` returns 1 to 3 entries, concatenating the
whitespace-delimited token sequences of the entries in order yields
exactly the token sequence of the input line, and when the input is only
the "아멘" marker the first entry is the empty string. -/
theorem splitBalanced_token_preservation (line : String) :
    (1 ≤ (splitBalanced line).length ∧ (splitBalanced line).length ≤ 3) ∧
    ((splitBalanced line).map (fun e => tokens e.toList)).flatten =
      tokens line.toList ∧
    (tokens line.toList = [amenTok] →
      (splitBalanced line).head? = some "") := by
  refine ⟨?_, ?_, ?_⟩
  · unfold splitBalanced
    simpa using splitBalancedL_length line.toList
  · unfold splitBalanced
    rw [List.map_map]
    have hcmp : ((fun e : String => tokens e.toList) ∘ fun l => String.mk l) =
        tokens := by
      funext l
      rfl
    rw [hcmp]
    exact splitBalancedL_flatten line.toList
  · intro h
    unfold splitBalanced
    rw [List.head?_map, splitBalancedL_amen_only line.toList h]
    rfl

/-- C10 witness: the marker-only input yields `""` as its first entry. -/
theorem splitBalanced_token_preservation_witness :
    (splitBalanced "아멘").head? = some "" :=
  (splitBalanced_token_preservation "아멘").2.2
    (by simp +decide [tokens, amenTok])

end Euljiro
